import Mathlib

/-!
Verification of the `unidown` lexical-scanning toolkit: a text `Cursor`
over an immutable buffer (src/lib.rs) and an escape-sequence decoder for
string/char literal content (src/unescape.rs).

Strings are modelled as lists of Unicode scalar values (`List Char`);
byte offsets and byte lengths are computed through `Char.utf8Size`,
matching Rust's `char::len_utf8` and byte-indexed slicing of `str`.

A `Cursor` holds the full original text together with a contiguous
remaining view.  In the Rust source the cursor stores the input slice and
a `Chars` iterator over a sub-slice; here the input is kept in three
pieces: the text before the remaining view (`pre`), the remaining view
itself (`rem`, the target of `as_str`), and the text after it (`post`).
For a cursor created from a whole text `post` is empty; `focus_*`
operations return sub-cursors whose view stops before the end of the
input, which is exactly the `post ≠ []` case.  `input()` is the
concatenation of the three pieces, and the pointer subtraction
`as_str().as_ptr() - input.as_ptr()` that implements `position()` is the
UTF-8 byte length of `pre`.
-/

/-- UTF-8 byte length of a list of characters (the byte length of the
Rust `str` it models). -/
def utf8Len (l : List Char) : Nat :=
  (l.map Char.utf8Size).sum

/-- Byte-indexed drop: removes the characters making up the first `n`
bytes.  Models the tail part of byte-indexed `str` slicing; all uses are
at character boundaries. -/
def byteDrop : List Char → Nat → List Char
  | l, 0 => l
  | [], _ => []
  | c :: rest, n => byteDrop rest (n - c.utf8Size)

/-- Byte-indexed take: keeps the characters making up the first `n`
bytes.  Models the head part of byte-indexed `str` slicing; all uses are
at character boundaries. -/
def byteTake : List Char → Nat → List Char
  | _, 0 => []
  | [], _ => []
  | c :: rest, n => c :: byteTake rest (n - c.utf8Size)

/-- The cursor of src/lib.rs: full input text split as
`pre ++ rem ++ post`, where `rem` is the unconsumed remaining view. -/
structure Cursor where
  pre : List Char
  rem : List Char
  post : List Char
deriving Repr, DecidableEq

namespace Cursor

/-- `Cursor::from(input)`: a full cursor over a text, positioned at its
start. -/
def ofList (input : List Char) : Cursor :=
  ⟨[], input, []⟩

/-- `Cursor::input`: the complete original text. -/
def input (c : Cursor) : List Char :=
  c.pre ++ c.rem ++ c.post

/-- `Cursor::as_str`: the unconsumed remaining view. -/
def as_str (c : Cursor) : List Char :=
  c.rem

/-- `Cursor::is_empty`. -/
def is_empty (c : Cursor) : Bool :=
  c.rem.isEmpty

/-- `Cursor::position`: byte offset of the remaining view's start inside
the input (the source computes it by pointer subtraction
`as_str().as_ptr() - input.as_ptr()`, which equals the byte length of the
text before the view). -/
def position (c : Cursor) : Nat :=
  utf8Len c.pre

/-- `Cursor::previous`: last character of `input[0..position]`, or a
newline when at offset 0. -/
def previous (c : Cursor) : Char :=
  ((byteTake c.input c.position).getLast?).getD '\n'

/-- `Cursor::first`: lookahead at the next character. -/
def first (c : Cursor) : Option Char :=
  c.rem.head?

/-- `Cursor::second`: lookahead at the character after next. -/
def second (c : Cursor) : Option Char :=
  c.rem.tail.head?

/-- `Cursor::consume`: remove and return the first remaining character.
The sole primitive that advances the cursor. -/
def consume (c : Cursor) : Option Char × Cursor :=
  match c.rem with
  | [] => (none, c)
  | ch :: rest => (some ch, ⟨c.pre ++ [ch], rest, c.post⟩)

theorem consume_none {c c' : Cursor} (h : c.consume = (none, c')) :
    c.rem = [] ∧ c' = c := by
  unfold consume at h
  rcases hr : c.rem with _ | ⟨ch, rest⟩
  · rw [hr] at h
    simp only [Prod.mk.injEq] at h
    exact ⟨rfl, h.2.symm⟩
  · rw [hr] at h
    simp at h

theorem consume_some {c c' : Cursor} {ch : Char}
    (h : c.consume = (some ch, c')) :
    c.rem = ch :: c'.rem ∧ c'.pre = c.pre ++ [ch] ∧ c'.post = c.post := by
  unfold consume at h
  cases hr : c.rem with
  | nil => simp [hr] at h
  | cons x rest =>
      simp only [hr] at h
      obtain ⟨h1, h2⟩ := Prod.mk.injEq .. ▸ h
      cases h1
      cases h2
      exact ⟨by simp [hr], rfl, rfl⟩

theorem consume_some_length {c c' : Cursor} {ch : Char}
    (h : c.consume = (some ch, c')) : c'.rem.length < c.rem.length := by
  have := (consume_some h).1
  simp [this]

/-- `Cursor::consume_with`: run an action on the cursor. -/
def consume_with (c : Cursor) (f : Cursor → Cursor) : Cursor :=
  f c

/-- Loop body of `consume_while`: the source iterates over a clone of
the remaining characters (`for ch in cursor.chars()`) while advancing
the cursor itself with `consume`; the list argument is that clone. -/
def whileGo (p : Char → Bool) : List Char → Cursor → Cursor
  | [], cur => cur
  | ch :: rest, cur =>
      if p ch then whileGo p rest (cur.consume).2 else cur

/-- `Cursor::consume_while`: consume characters as long as the predicate
holds, stopping before the first character for which it fails. -/
def consume_while (c : Cursor) (p : Char → Bool) : Cursor :=
  whileGo p c.rem c

/-- Loop body of `consume_until`: iterate over a clone of the remaining
characters, consuming unconditionally and testing the character just
consumed. -/
def untilGo (p : Char → Bool) : List Char → Cursor → Cursor
  | [], cur => cur
  | ch :: rest, cur =>
      if p ch then (cur.consume).2 else untilGo p rest (cur.consume).2

/-- `Cursor::consume_until`: consume characters unconditionally, testing
the predicate after each consumption, stopping after the first character
that satisfies it. -/
def consume_until (c : Cursor) (p : Char → Bool) : Cursor :=
  untilGo p c.rem c

/-- `Cursor::consume_line`: consume through and including the next
newline. -/
def consume_line (c : Cursor) : Cursor :=
  c.consume_until (fun ch => ch == '\n')

end Cursor

/-- The newline-terminator split underlying Rust's `str::lines`:
segments between newline characters, a trailing newline producing no
final empty segment. -/
def splitTermNL : List Char → List (List Char)
  | [] => []
  | ch :: rest =>
    if ch = '\n' then [] :: splitTermNL rest
    else
      match splitTermNL rest with
      | [] => [[ch]]
      | seg :: segs => (ch :: seg) :: segs

/-- Strip one trailing carriage return, as `str::lines` does to each
segment. -/
def stripCR (l : List Char) : List Char :=
  if l.getLast? = some '\r' then l.dropLast else l

/-- Rust's `str::lines` over the modelled text. -/
def linesOf (l : List Char) : List (List Char) :=
  (splitTermNL l).map stripCR

namespace Cursor

/-- Loop body of `consume_lines_while`: iterate over the snapshot of the
remainder's lines, consuming a line while the predicate holds. -/
def linesWhileGo : List (List Char) → Cursor → (List Char → Bool) → Cursor
  | [], c, _ => c
  | ln :: rest, c, p =>
    if p ln then linesWhileGo rest c.consume_line p else c

/-- `Cursor::consume_lines_while`. -/
def consume_lines_while (c : Cursor) (p : List Char → Bool) : Cursor :=
  linesWhileGo (linesOf c.rem) c p

/-- Loop body of `consume_lines_until`: iterate over the snapshot of the
remainder's lines, consuming each line and stopping after the first
satisfying the predicate. -/
def linesUntilGo : List (List Char) → Cursor → (List Char → Bool) → Cursor
  | [], c, _ => c
  | ln :: rest, c, p =>
    if p ln then c.consume_line else linesUntilGo rest c.consume_line p

/-- `Cursor::consume_lines_until`. -/
def consume_lines_until (c : Cursor) (p : List Char → Bool) : Cursor :=
  linesUntilGo (linesOf c.rem) c p

/-- A cursor over `input[s..e]` with the same input text, as built by
`Cursor::new(input, input[s..e].chars())` inside `focus_with` (`s`, `e`
are byte offsets). -/
def ofSlice (inp : List Char) (s e : Nat) : Cursor :=
  ⟨byteTake inp s, byteTake (byteDrop inp s) (e - s), byteDrop inp e⟩

/-- `Cursor::focus_with`: record the position, run the action, record
the new position, and return the sub-cursor over the consumed range
together with the advanced original cursor. -/
def focus_with (c : Cursor) (f : Cursor → Cursor) : Cursor × Cursor :=
  let s := c.position
  let c' := f c
  let e := c'.position
  (ofSlice c'.input s e, c')

/-- `Cursor::focus_char`. -/
def focus_char (c : Cursor) : Cursor × Cursor :=
  c.focus_with (fun cur => (cur.consume).2)

/-- `Cursor::focus_line`. -/
def focus_line (c : Cursor) : Cursor × Cursor :=
  c.focus_with (fun cur => cur.consume_line)

/-- `Cursor::focus_while`. -/
def focus_while (c : Cursor) (p : Char → Bool) : Cursor × Cursor :=
  c.focus_with (fun cur => cur.consume_while p)

/-- `Cursor::focus_until`. -/
def focus_until (c : Cursor) (p : Char → Bool) : Cursor × Cursor :=
  c.focus_with (fun cur => cur.consume_until p)

/-- `Cursor::focus_lines_while`. -/
def focus_lines_while (c : Cursor) (p : List Char → Bool) : Cursor × Cursor :=
  c.focus_with (fun cur => cur.consume_lines_while p)

/-- `Cursor::focus_lines_until`. -/
def focus_lines_until (c : Cursor) (p : List Char → Bool) : Cursor × Cursor :=
  c.focus_with (fun cur => cur.consume_lines_until p)

end Cursor

/-- The `EscapeError` enumeration of src/unescape.rs. -/
inductive EscapeError where
  | LoneSlash
  | InvalidEscape
  | BareCarriageReturn
  | EscapeOnlyChar
  | TooShortHexEscape
  | InvalidCharInHexEscape
  | NoBraceInUnicodeEscape
  | InvalidCharInUnicodeEscape
  | EmptyUnicodeEscape
  | UnclosedUnicodeEscape
  | LeadingUnderscoreUnicodeEscape
  | OverlongUnicodeEscape
  | LoneSurrogateUnicodeEscape
  | OutOfRangeUnicodeEscape
deriving Repr, DecidableEq

/-- The `Mode` enumeration: which literal delimiter governs escaping. -/
inductive Mode where
  | Single
  | Double
deriving Repr, DecidableEq

/-- Rust's `char::to_digit(16)`: hexadecimal digit value of a character,
if any. -/
def toDigit16 (c : Char) : Option Nat :=
  if '0' ≤ c ∧ c ≤ '9' then some (c.toNat - ('0').toNat)
  else if 'a' ≤ c ∧ c ≤ 'f' then some (c.toNat - ('a').toNat + 10)
  else if 'A' ≤ c ∧ c ≤ 'F' then some (c.toNat - ('A').toNat + 10)
  else none

/-- Rust's `std::char::from_u32`: a character for any value outside the
surrogate range and at most 0x10FFFF. -/
def charFromU32 (v : Nat) : Option Char :=
  if v < 0xD800 ∨ (0xDFFF < v ∧ v < 0x110000) then some (Char.ofNat v)
  else none

/-- Outcome of one decode unit: a character or an `EscapeError`. -/
abbrev EscResult := Except EscapeError Char

/-- Result of the closing brace of a Unicode escape (src/unescape.rs
lines 142-148): `char::from_u32` on the accumulated value, with failures
split by whether the value exceeds 0x10FFFF. -/
def uniRes (v : Nat) : EscResult :=
  match charFromU32 v with
  | some ch => .ok ch
  | none =>
      if v > 0x10FFFF then .error .OutOfRangeUnicodeEscape
      else .error .LoneSurrogateUnicodeEscape

/-- The `loop` of the `'u'` arm of `scan_escape` (src/unescape.rs lines
127-163): scan hex digits and underscores up to the closing brace.
`value` is a `u32` in the source, hence the reduction modulo 2^32 on the
accumulating step (the guard keeps it far below the modulus, see
`uniLoop_spec`). -/
def uniLoopF : Nat → Cursor → Nat → Nat → EscResult × Cursor
  | 0, c, _, _ => (.error .UnclosedUnicodeEscape, (c.consume).2)
  | fuel + 1, c, nDigits, value =>
    match c.consume with
    | (none, c1) => (.error .UnclosedUnicodeEscape, c1)
    | (some ch, c1) =>
      if ch = '_' then uniLoopF fuel c1 nDigits value
      else if ch = '\x7d' then
        if nDigits > 6 then (.error .OverlongUnicodeEscape, c1)
        else (uniRes value, c1)
      else
        match toDigit16 ch with
        | none => (.error .InvalidCharInUnicodeEscape, c1)
        | some digit =>
          if nDigits + 1 > 6 then uniLoopF fuel c1 (nDigits + 1) value
          else uniLoopF fuel c1 (nDigits + 1)
            ((value * 16 + digit) % 4294967296)

/-- The brace-scanning loop, entered with the fuel in sync with the
remaining length (each iteration consumes exactly one character, so the
fuel never runs out before the cursor does). -/
def uniLoop (c : Cursor) (nDigits value : Nat) : EscResult × Cursor :=
  uniLoopF c.rem.length c nDigits value

/-- The `'u'` arm of `scan_escape` (src/unescape.rs lines 108-164):
require an opening brace, classify the first body character, then run
`uniLoop`. -/
def scanUnicode (c : Cursor) : EscResult × Cursor :=
  match c.consume with
  | (none, c1) => (.error .NoBraceInUnicodeEscape, c1)
  | (some br, c1) =>
    if br ≠ '\x7b' then (.error .NoBraceInUnicodeEscape, c1)
    else
      match c1.consume with
      | (none, c2) => (.error .UnclosedUnicodeEscape, c2)
      | (some fc, c2) =>
        if fc = '_' then (.error .LeadingUnderscoreUnicodeEscape, c2)
        else if fc = '\x7d' then (.error .EmptyUnicodeEscape, c2)
        else
          match toDigit16 fc with
          | none => (.error .InvalidCharInUnicodeEscape, c2)
          | some v0 => uniLoop c2 1 v0

/-- The `'x'` arm of `scan_escape` (src/unescape.rs lines 88-106): two
hex digits combined to a byte value, reinterpreted as a character code
(`value as u8 as char`, hence the reduction modulo 256). -/
def scanHex (c : Cursor) : EscResult × Cursor :=
  match c.consume with
  | (none, c1) => (.error .TooShortHexEscape, c1)
  | (some hc, c1) =>
    match toDigit16 hc with
    | none => (.error .InvalidCharInHexEscape, c1)
    | some hi =>
      match c1.consume with
      | (none, c2) => (.error .TooShortHexEscape, c2)
      | (some lc, c2) =>
        match toDigit16 lc with
        | none => (.error .InvalidCharInHexEscape, c2)
        | some lo => (.ok (Char.ofNat ((hi * 16 + lo) % 256)), c2)

/-- `scan_escape` (src/unescape.rs lines 73-168), entered after the
backslash has been consumed. -/
def scan_escape (c : Cursor) : EscResult × Cursor :=
  match c.consume with
  | (none, c1) => (.error .LoneSlash, c1)
  | (some sc, c1) =>
    match sc with
    | '"' => (.ok '"', c1)
    | 'n' => (.ok '\n', c1)
    | 'r' => (.ok '\r', c1)
    | 't' => (.ok '\t', c1)
    | '\\' => (.ok '\\', c1)
    | '\'' => (.ok '\'', c1)
    | '0' => (.ok '\x00', c1)
    | 'x' => scanHex c1
    | 'u' => scanUnicode c1
    | _ => (.error .InvalidEscape, c1)

/-! ## Advancement: the relation between a cursor and any cursor obtained
from it by consumption only (same input text, same view end, a consumed
chunk moved from the front of the remaining view). -/

/-- `c'` is obtained from `c` by consuming some prefix of the remaining
view: the text after the view is untouched and the consumed chunk moves
from the front of `rem` to the back of `pre`. -/
def Advances (c c' : Cursor) : Prop :=
  c'.post = c.post ∧ ∃ t, c'.pre = c.pre ++ t ∧ c.rem = t ++ c'.rem

theorem Advances.refl (c : Cursor) : Advances c c :=
  ⟨rfl, [], by simp, by simp⟩

theorem Advances.trans {a b c : Cursor} (h1 : Advances a b)
    (h2 : Advances b c) : Advances a c := by
  obtain ⟨hp1, t1, hpre1, hrem1⟩ := h1
  obtain ⟨hp2, t2, hpre2, hrem2⟩ := h2
  exact ⟨hp2.trans hp1, t1 ++ t2, by simp [hpre2, hpre1],
    by simp [hrem1, hrem2]⟩

theorem Advances.input_eq {c c' : Cursor} (h : Advances c c') :
    c'.input = c.input := by
  obtain ⟨hp, t, hpre, hrem⟩ := h
  simp [Cursor.input, hp, hpre, hrem]

theorem Advances.rem_length_le {c c' : Cursor} (h : Advances c c') :
    c'.rem.length ≤ c.rem.length := by
  obtain ⟨_, t, _, hrem⟩ := h
  simp [hrem]

theorem Advances.consume {c : Cursor} :
    Advances c (c.consume).2 := by
  rcases h : c.consume with ⟨o, c'⟩
  rcases o with _ | ch
  · obtain ⟨_, h2⟩ := Cursor.consume_none h
    rw [h2]; exact Advances.refl c
  · obtain ⟨hrem, hpre, hpost⟩ := Cursor.consume_some h
    exact ⟨hpost, [ch], by simp [hpre], by simp [hrem]⟩

theorem Advances.consume_eq {c c' : Cursor} {o : Option Char}
    (h : c.consume = (o, c')) : Advances c c' := by
  have := @Advances.consume c
  rw [h] at this
  exact this

theorem Advances.whileGo (p : Char → Bool) (l : List Char) (c : Cursor) :
    Advances c (Cursor.whileGo p l c) := by
  induction l generalizing c with
  | nil => exact Advances.refl c
  | cons ch rest ih =>
      rw [Cursor.whileGo]
      by_cases hp : p ch
      · simp only [hp, if_true]
        exact (@Advances.consume c).trans (ih _)
      · simp only [hp, if_false]
        exact Advances.refl c

theorem Advances.consume_while (c : Cursor) (p : Char → Bool) :
    Advances c (c.consume_while p) :=
  Advances.whileGo p c.rem c

theorem Advances.untilGo (p : Char → Bool) (l : List Char) (c : Cursor) :
    Advances c (Cursor.untilGo p l c) := by
  induction l generalizing c with
  | nil => exact Advances.refl c
  | cons ch rest ih =>
      rw [Cursor.untilGo]
      by_cases hp : p ch
      · simp only [hp, if_true]
        exact @Advances.consume c
      · simp only [hp, if_false]
        exact (@Advances.consume c).trans (ih _)

theorem Advances.consume_until (c : Cursor) (p : Char → Bool) :
    Advances c (c.consume_until p) :=
  Advances.untilGo p c.rem c

theorem Advances.consume_line (c : Cursor) :
    Advances c c.consume_line :=
  Advances.consume_until c _

theorem Advances.linesWhileGo (lns : List (List Char)) (c : Cursor)
    (p : List Char → Bool) : Advances c (Cursor.linesWhileGo lns c p) := by
  induction lns generalizing c with
  | nil => exact Advances.refl c
  | cons ln rest ih =>
      rw [Cursor.linesWhileGo]
      by_cases hp : p ln
      · simp only [hp, if_true]
        exact (Advances.consume_line c).trans (ih _)
      · simp only [hp, if_false]
        exact Advances.refl c

theorem Advances.consume_lines_while (c : Cursor) (p : List Char → Bool) :
    Advances c (c.consume_lines_while p) :=
  Advances.linesWhileGo _ c p

theorem Advances.linesUntilGo (lns : List (List Char)) (c : Cursor)
    (p : List Char → Bool) : Advances c (Cursor.linesUntilGo lns c p) := by
  induction lns generalizing c with
  | nil => exact Advances.refl c
  | cons ln rest ih =>
      rw [Cursor.linesUntilGo]
      by_cases hp : p ln
      · simp only [hp, if_true]
        exact Advances.consume_line c
      · simp only [hp, if_false]
        exact (Advances.consume_line c).trans (ih _)

theorem Advances.consume_lines_until (c : Cursor) (p : List Char → Bool) :
    Advances c (c.consume_lines_until p) :=
  Advances.linesUntilGo _ c p

theorem uniLoopF_adv (fuel : Nat) (c : Cursor) (n v : Nat) :
    Advances c (uniLoopF fuel c n v).2 := by
  induction fuel generalizing c n v with
  | zero => exact @Advances.consume c
  | succ fuel ih =>
      rw [uniLoopF]
      rcases h : c.consume with ⟨o, c1⟩
      have adv1 : Advances c c1 := Advances.consume_eq h
      rcases o with _ | ch
      · exact adv1
      · by_cases h1 : ch = '_'
        · simp only [h1, if_true, reduceIte]
          exact adv1.trans (ih _ _ _)
        · by_cases h2 : ch = '\x7d'
          · simp only [h1, h2, if_true, if_false, reduceIte]
            by_cases h3 : n > 6
            · simp only [h3, if_true, reduceIte]; exact adv1
            · simp only [h3, if_false, reduceIte]; exact adv1
          · rcases h4 : toDigit16 ch with _ | dg
            · simp only [h1, h2, h4, if_false, reduceIte]
              exact adv1
            · simp only [h1, h2, h4, if_false, reduceIte]
              by_cases h5 : n + 1 > 6
              · simp only [h5, if_true, reduceIte]
                exact adv1.trans (ih _ _ _)
              · simp only [h5, if_false, reduceIte]
                exact adv1.trans (ih _ _ _)

theorem uniLoop_adv (c : Cursor) (n v : Nat) :
    Advances c (uniLoop c n v).2 :=
  uniLoopF_adv c.rem.length c n v

theorem scanUnicode_adv (c : Cursor) : Advances c (scanUnicode c).2 := by
  rw [scanUnicode]
  rcases h : c.consume with ⟨o, c1⟩
  rcases o with _ | br
  · exact Advances.consume_eq h
  · simp only []
    by_cases hbr : br = '\x7b'
    · simp only [hbr, ne_eq, not_true_eq_false, if_false, reduceIte]
      rcases h2 : c1.consume with ⟨o2, c2⟩
      rcases o2 with _ | fc
      · exact (Advances.consume_eq h).trans (Advances.consume_eq h2)
      · have adv2 : Advances c c2 :=
          (Advances.consume_eq h).trans (Advances.consume_eq h2)
        by_cases hu : fc = '_'
        · simp only [hu, if_true, reduceIte]; exact adv2
        · by_cases hb : fc = '\x7d'
          · simp only [hu, hb, if_true, if_false, reduceIte]; exact adv2
          · rcases hd : toDigit16 fc with _ | v0
            · simp only [hu, hb, hd, if_false, reduceIte]; exact adv2
            · simp only [hu, hb, hd, if_false, reduceIte]
              exact adv2.trans (uniLoop_adv c2 1 v0)
    · simp only [hbr, ne_eq, if_true, reduceIte]
      exact Advances.consume_eq h

theorem scanHex_adv (c : Cursor) : Advances c (scanHex c).2 := by
  rw [scanHex]
  split
  · rename_i c1 h
    exact Advances.consume_eq h
  · rename_i hc c1 h
    split
    · exact Advances.consume_eq h
    · rename_i hi hd
      split
      · rename_i c2 h2
        exact (Advances.consume_eq h).trans (Advances.consume_eq h2)
      · rename_i lc c2 h2
        split
        · exact (Advances.consume_eq h).trans (Advances.consume_eq h2)
        · exact (Advances.consume_eq h).trans (Advances.consume_eq h2)

theorem scanEscape_adv (c : Cursor) : Advances c (scan_escape c).2 := by
  rw [scan_escape]
  split
  · rename_i c1 h
    exact Advances.consume_eq h
  · rename_i sc c1 h
    have adv1 : Advances c c1 := Advances.consume_eq h
    split
    any_goals exact adv1
    · exact adv1.trans (scanHex_adv c1)
    · exact adv1.trans (scanUnicode_adv c1)

/-! ## The decoder loop `unescape_str` (src/unescape.rs lines 172-192).
The caller-supplied callback is modelled by collecting, in invocation
order, the `(byte range, outcome)` pairs it would receive. -/

/-- One callback invocation: a byte range into the literal content and
the decoded character or error. -/
abbrev EscUnit := (Nat × Nat) × EscResult

/-- The `match first_char` classification in the body of the
`unescape_str` loop (src/unescape.rs lines 180-188), entered after
`first_char` has been consumed.  A guarded arm whose mode guard fails
falls through to the final pass-through arm. -/
def classify (mode : Mode) (fc : Char) (c1 : Cursor) : EscResult × Cursor :=
  match fc with
  | '\\' => scan_escape c1
  | '\n' => (.ok '\n', c1)
  | '\t' => (.ok '\t', c1)
  | '"' =>
      if mode = Mode.Double then (.error .EscapeOnlyChar, c1)
      else (.ok '"', c1)
  | '\'' =>
      if mode = Mode.Single then (.error .EscapeOnlyChar, c1)
      else (.ok '\'', c1)
  | '\r' => (.error .BareCarriageReturn, c1)
  | _ => (.ok fc, c1)

theorem classify_adv (mode : Mode) (fc : Char) (c1 : Cursor) :
    Advances c1 (classify mode fc c1).2 := by
  simp only [classify.eq_def]
  split
  all_goals try exact scanEscape_adv c1
  all_goals try exact Advances.refl c1
  all_goals split <;> exact Advances.refl c1

/-- The `while let` loop of `unescape_str`: consume one character,
classify it (possibly consuming the rest of an escape sequence), report
the byte range `start..end` computed from the remaining byte lengths,
and continue until the cursor is exhausted.  The fuel starts at the
remaining length and bounds it at every iteration (each iteration
consumes at least one character), so it never runs out before the
cursor does. -/
def unescapeLoopF : Nat → Nat → Cursor → Mode → List EscUnit
  | 0, _, _, _ => []
  | fuel + 1, initialLen, cursor, mode =>
    match cursor.consume with
    | (none, _) => []
    | (some fc, c1) =>
      let rc := classify mode fc c1
      ((initialLen - utf8Len c1.rem - fc.utf8Size,
          initialLen - utf8Len rc.2.rem), rc.1)
        :: unescapeLoopF fuel initialLen rc.2 mode

/-- `unescape_str`: decode the whole literal content, reporting each
unit through the callback (collected here as a list, in invocation
order). -/
def unescape_str (cursor : Cursor) (mode : Mode) : List EscUnit :=
  unescapeLoopF cursor.rem.length (utf8Len cursor.as_str) cursor mode

/-! ## Byte-length and byte-slicing facts. -/

theorem utf8Len_nil : utf8Len [] = 0 := rfl

theorem utf8Len_cons (c : Char) (l : List Char) :
    utf8Len (c :: l) = c.utf8Size + utf8Len l := by
  simp [utf8Len]

theorem utf8Len_append (a b : List Char) :
    utf8Len (a ++ b) = utf8Len a + utf8Len b := by
  simp [utf8Len]

theorem utf8Len_eq_zero {l : List Char} (h : utf8Len l = 0) : l = [] := by
  cases l with
  | nil => rfl
  | cons c rest =>
      rw [utf8Len_cons] at h
      have := Char.utf8Size_pos c
      omega

theorem byteTake_zero (l : List Char) : byteTake l 0 = [] := by
  cases l <;> rfl

theorem byteDrop_zero (l : List Char) : byteDrop l 0 = l := by
  cases l <;> rfl

theorem byteTake_utf8Len (a b : List Char) :
    byteTake (a ++ b) (utf8Len a) = a := by
  induction a with
  | nil => exact byteTake_zero b
  | cons c rest ih =>
      have hpos := Char.utf8Size_pos c
      rw [utf8Len_cons]
      obtain ⟨m, hm⟩ : ∃ m, c.utf8Size + utf8Len rest = m + 1 :=
        ⟨c.utf8Size + utf8Len rest - 1, by omega⟩
      rw [hm, List.cons_append, byteTake]
      · rw [show m + 1 - c.utf8Size = utf8Len rest by omega]
        rw [ih]
      · omega

theorem byteDrop_utf8Len (a b : List Char) :
    byteDrop (a ++ b) (utf8Len a) = b := by
  induction a with
  | nil => exact byteDrop_zero b
  | cons c rest ih =>
      have hpos := Char.utf8Size_pos c
      rw [utf8Len_cons]
      obtain ⟨m, hm⟩ : ∃ m, c.utf8Size + utf8Len rest = m + 1 :=
        ⟨c.utf8Size + utf8Len rest - 1, by omega⟩
      rw [hm, List.cons_append, byteDrop]
      · rw [show m + 1 - c.utf8Size = utf8Len rest by omega]
        rw [ih]
      · omega

/-- `previous()` reads the last character of the consumed part of the
input, defaulting to a newline at offset 0. -/
theorem previous_eq_getLast (c : Cursor) :
    c.previous = (c.pre.getLast?).getD '\n' := by
  unfold Cursor.previous Cursor.input Cursor.position
  rw [List.append_assoc, byteTake_utf8Len]

/-! ## The general `focus_with` specification: for any action that only
consumes (advances the cursor), the returned sub-cursor is the cursor
whose view is exactly the consumed chunk, positioned inside the full
original input. -/

theorem focus_with_spec {c : Cursor} {f : Cursor → Cursor}
    (h : Advances c (f c)) :
    (c.focus_with f).2 = f c ∧
    ∃ t, (f c).pre = c.pre ++ t ∧ c.rem = t ++ (f c).rem ∧
      (c.focus_with f).1 = ⟨c.pre, t, (f c).rem ++ c.post⟩ := by
  obtain ⟨hpost, t, hpre, hrem⟩ := h
  refine ⟨rfl, t, hpre, hrem, ?_⟩
  unfold Cursor.focus_with Cursor.ofSlice
  simp only [Cursor.position, Cursor.input, hpost, hpre, hrem]
  have h2 : utf8Len (c.pre ++ t) - utf8Len c.pre = utf8Len t := by
    rw [utf8Len_append]; omega
  rw [h2]
  simp only [List.append_assoc]
  congr 1
  · exact byteTake_utf8Len _ _
  · rw [byteDrop_utf8Len]
    exact byteTake_utf8Len _ _
  · rw [show c.pre ++ (t ++ ((f c).rem ++ c.post))
        = (c.pre ++ t) ++ ((f c).rem ++ c.post) by simp]
    exact byteDrop_utf8Len _ _

/-! ## Claim theorems. -/

/-- `tiles s us e`: the byte ranges in `us` are contiguous from `s` to
`e` — the first starts at `s`, each range's end is the next one's start,
and the last ends at `e`. -/
def tiles : Nat → List EscUnit → Nat → Prop
  | s, [], e => s = e
  | s, ((a, b), _) :: rest, e => s = a ∧ tiles b rest e

theorem unescapeLoopF_tiles (fuel : Nat) :
    ∀ (c : Cursor) (il : Nat) (mode : Mode), c.rem.length ≤ fuel →
    tiles (il - utf8Len c.rem) (unescapeLoopF fuel il c mode) il := by
  induction fuel with
  | zero =>
      intro c il mode hle
      have : c.rem = [] := List.length_eq_zero.mp (Nat.le_zero.mp hle)
      simp [unescapeLoopF, tiles, this, utf8Len_nil]
  | succ fuel ih =>
      intro c il mode hle
      rw [unescapeLoopF]
      rcases h : c.consume with ⟨o, c1⟩
      rcases o with _ | fc
      · obtain ⟨hrem, _⟩ := Cursor.consume_none h
        simp [tiles, hrem, utf8Len_nil]
      · obtain ⟨hrem, _, _⟩ := Cursor.consume_some h
        simp only [tiles]
        constructor
        · rw [hrem, utf8Len_cons]
          omega
        · have hlen : (classify mode fc c1).2.rem.length ≤ fuel := by
            have h1 := (classify_adv mode fc c1).rem_length_le
            have h2 : c.rem.length = c1.rem.length + 1 := by rw [hrem]; simp
            omega
          exact ih _ il mode hlen

/-- C1: for every literal content and mode, `unescape_str` reports a
sequence of byte ranges that exactly tiles the content: the first range
starts at 0, each range's end is the next range's start, and the last
range's end is the content's byte length — in particular the scan never
stops early on an error outcome. -/
theorem unescape_str_covers (content : List Char) (mode : Mode) :
    tiles 0 (unescape_str (Cursor.ofList content) mode) (utf8Len content) := by
  have h := unescapeLoopF_tiles content.length (Cursor.ofList content)
    (utf8Len content) mode (le_refl _)
  simpa [unescape_str, Cursor.ofList, Cursor.as_str] using h

/-- C2, counterexample: for the sub-cursor returned by `focus_char` on a
two-character input, the byte length of `as_str()` plus `position()` is
1, while the byte length of `input()` is 2 — the claimed invariant fails
on focus-returned cursors whose range stops before the input's end. -/
theorem c2_focus_breaks_invariant :
    utf8Len ((Cursor.ofList ['a', 'b']).focus_char.1.as_str)
        + (Cursor.ofList ['a', 'b']).focus_char.1.position
      ≠ utf8Len ((Cursor.ofList ['a', 'b']).focus_char.1.input) := by
  decide

/-- C2, amended: `length(as_str()) + position() == length(input())`
holds for every cursor whose remaining view extends to the end of its
input — in particular for any cursor created from a text, and the
property is preserved by every consuming operation.  A focus-returned
sub-cursor satisfies it only when its range ends at the input's end. -/
theorem c2_suffix_invariant :
    (∀ c : Cursor, c.post = [] →
      utf8Len c.as_str + c.position = utf8Len c.input) ∧
    (∀ content : List Char, (Cursor.ofList content).post = []) ∧
    (∀ c c' : Cursor, Advances c c' → c.post = [] → c'.post = []) := by
  refine ⟨?_, ?_, ?_⟩
  · intro c h
    simp [Cursor.as_str, Cursor.position, Cursor.input, h, utf8Len_append,
      utf8Len_nil]
    omega
  · intro content
    rfl
  · intro c c' hadv h
    rw [hadv.1, h]

theorem c2_suffix_invariant_holds_at_ofList :
    (Cursor.ofList ['a', 'b']).post = [] ∧
    utf8Len (Cursor.ofList ['a', 'b']).as_str
        + (Cursor.ofList ['a', 'b']).position
      = utf8Len (Cursor.ofList ['a', 'b']).input :=
  ⟨rfl, c2_suffix_invariant.1 (Cursor.ofList ['a', 'b']) rfl⟩

/-- The properties C9 asserts of a focus-returned sub-cursor: it keeps
the full original text as its `input()`, its `position()` is the byte
offset where the focused range starts (the original cursor's position at
the call), and its `previous()` is the character of the original input
immediately before the range — a newline when the range starts at
offset 0. -/
def FocusKeeps (c sub : Cursor) : Prop :=
  sub.input = c.input ∧ sub.position = c.position ∧
  sub.previous = c.previous ∧ (c.position = 0 → sub.previous = '\n')

theorem focusKeeps_of_advances {c : Cursor} {f : Cursor → Cursor}
    (h : Advances c (f c)) : FocusKeeps c (c.focus_with f).1 := by
  obtain ⟨-, t, -, hrem, hsub⟩ := focus_with_spec h
  have hinput : (c.focus_with f).1.input = c.input := by
    rw [hsub]
    simp [Cursor.input, hrem]
  have hpos : (c.focus_with f).1.position = c.position := by
    rw [hsub]; rfl
  refine ⟨hinput, hpos, ?_, ?_⟩
  · unfold Cursor.previous
    rw [hinput, hpos]
  · intro h0
    rw [previous_eq_getLast, hsub]
    simp only []
    have : c.pre = [] := utf8Len_eq_zero h0
    rw [this]
    rfl

/-- C9: the cursor returned by `focus_with` (and by each `focus_*`
specialization, every one of which is `focus_with` of a consuming
action) keeps the full original text as its `input()`; its `position()`
is the byte offset at which the focused range starts within that input,
and its `previous()` is the character immediately before the range, a
newline when the range starts at offset 0. -/
theorem focus_keeps_input_position_previous :
    (∀ (c : Cursor) (f : Cursor → Cursor), Advances c (f c) →
      FocusKeeps c (c.focus_with f).1) ∧
    (∀ c : Cursor, FocusKeeps c c.focus_char.1) ∧
    (∀ c : Cursor, FocusKeeps c c.focus_line.1) ∧
    (∀ (c : Cursor) (p : Char → Bool), FocusKeeps c (c.focus_while p).1) ∧
    (∀ (c : Cursor) (p : Char → Bool), FocusKeeps c (c.focus_until p).1) ∧
    (∀ (c : Cursor) (p : List Char → Bool),
      FocusKeeps c (c.focus_lines_while p).1) ∧
    (∀ (c : Cursor) (p : List Char → Bool),
      FocusKeeps c (c.focus_lines_until p).1) := by
  refine ⟨fun c f h => focusKeeps_of_advances h,
    fun c => focusKeeps_of_advances (@Advances.consume c),
    fun c => focusKeeps_of_advances (Advances.consume_line c),
    fun c p => focusKeeps_of_advances (Advances.consume_while c p),
    fun c p => focusKeeps_of_advances (Advances.consume_until c p),
    fun c p => focusKeeps_of_advances (Advances.consume_lines_while c p),
    fun c p => focusKeeps_of_advances (Advances.consume_lines_until c p)⟩

theorem focus_keeps_witness :
    Advances (Cursor.ofList ['a', 'b'])
      ((fun cur => (cur.consume).2) (Cursor.ofList ['a', 'b'])) ∧
    FocusKeeps (Cursor.ofList ['a', 'b'])
      ((Cursor.ofList ['a', 'b']).focus_with (fun cur => (cur.consume).2)).1 :=
  ⟨⟨rfl, ['a'], by decide, by decide⟩,
    focus_keeps_input_position_previous.1 (Cursor.ofList ['a', 'b'])
      (fun cur => (cur.consume).2) ⟨rfl, ['a'], by decide, by decide⟩⟩

/-- C10: whenever the `unescape_str` loop consumes a backslash and hands
the cursor to `scan_escape`, the character immediately preceding the
cursor's remaining view is that backslash, so the debug assertion
`previous() == '\\'` at the top of `scan_escape` holds on every call
made through `unescape_str`. -/
theorem scan_escape_precondition (c c1 : Cursor)
    (h : c.consume = (some '\\', c1)) : c1.previous = '\\' := by
  obtain ⟨-, hpre, -⟩ := Cursor.consume_some h
  rw [previous_eq_getLast, hpre, List.getLast?_concat]
  rfl

theorem scan_escape_precondition_witness :
    (Cursor.ofList ['\\', 'n']).consume
        = (some '\\', ⟨['\\'], ['n'], []⟩) ∧
    (⟨['\\'], ['n'], []⟩ : Cursor).previous = '\\' :=
  ⟨rfl, scan_escape_precondition (Cursor.ofList ['\\', 'n']) _ rfl⟩

theorem unescape_str_cons (ch : Char) (rest : List Char) (mode : Mode) :
    unescape_str (Cursor.ofList (ch :: rest)) mode =
      ((0, utf8Len (ch :: rest)
          - utf8Len (classify mode ch ⟨[ch], rest, []⟩).2.rem),
        (classify mode ch ⟨[ch], rest, []⟩).1)
        :: unescapeLoopF rest.length (utf8Len (ch :: rest))
            (classify mode ch ⟨[ch], rest, []⟩).2 mode := by
  simp only [unescape_str, Cursor.ofList, Cursor.as_str, List.length_cons]
  rw [unescapeLoopF]
  simp only [Cursor.consume, List.nil_append]
  have h0 : utf8Len (ch :: rest) - utf8Len rest - ch.utf8Size = 0 := by
    rw [utf8Len_cons]; omega
  rw [h0]

/-- C5: in `unescape_str`, an unescaped double quote is an
`EscapeOnlyChar` error exactly in `Double` mode and passes through as
itself in `Single` mode; an unescaped single quote is an
`EscapeOnlyChar` error exactly in `Single` mode and passes through in
`Double` mode; a raw carriage return is a `BareCarriageReturn` error in
both modes. -/
theorem delimiter_and_cr_classification :
    (∀ (rest : List Char) (mode : Mode),
      (unescape_str (Cursor.ofList ('"' :: rest)) mode).head? =
        some ((0, 1),
          if mode = Mode.Double then .error .EscapeOnlyChar
          else .ok '"')) ∧
    (∀ (rest : List Char) (mode : Mode),
      (unescape_str (Cursor.ofList ('\'' :: rest)) mode).head? =
        some ((0, 1),
          if mode = Mode.Single then .error .EscapeOnlyChar
          else .ok '\'')) ∧
    (∀ (rest : List Char) (mode : Mode),
      (unescape_str (Cursor.ofList ('\r' :: rest)) mode).head? =
        some ((0, 1), .error .BareCarriageReturn)) := by
  refine ⟨?_, ?_, ?_⟩ <;> intro rest mode <;> rw [unescape_str_cons] <;>
    cases mode <;>
    simp [classify, utf8Len_cons, show ('"').utf8Size = 1 from by decide,
      show ('\'').utf8Size = 1 from by decide,
      show ('\r').utf8Size = 1 from by decide]

theorem whileGo_eq (p : Char → Bool) :
    ∀ (l : List Char) (c : Cursor), c.rem = l →
    Cursor.whileGo p l c = ⟨c.pre ++ l.takeWhile p, l.dropWhile p, c.post⟩ := by
  intro l
  induction l with
  | nil =>
      intro c hc
      obtain ⟨pre, rem, post⟩ := c
      simp only [] at hc
      subst hc
      simp [Cursor.whileGo]
  | cons ch rest ih =>
      intro c hc
      obtain ⟨pre, rem, post⟩ := c
      simp only [] at hc
      subst hc
      rw [Cursor.whileGo]
      by_cases hp : p ch
      · rw [if_pos hp]
        have hcons : (Cursor.mk pre (ch :: rest) post).consume
            = (some ch, ⟨pre ++ [ch], rest, post⟩) := rfl
        rw [hcons]
        rw [ih ⟨pre ++ [ch], rest, post⟩ rfl]
        simp [List.takeWhile_cons, List.dropWhile_cons, hp]
      · rw [if_neg hp]
        simp [List.takeWhile_cons, List.dropWhile_cons, hp]

/-- C6: `consume_while(P)` consumes exactly the maximal prefix of the
remainder all of whose characters satisfy `P` (the consumed prefix
satisfies `P` pointwise), leaving a remainder that is either empty or
starts with a character on which `P` is false. -/
theorem consume_while_maximal_prefix (c : Cursor) (p : Char → Bool) :
    (c.consume_while p).pre = c.pre ++ c.rem.takeWhile p ∧
    (c.consume_while p).rem = c.rem.dropWhile p ∧
    (c.consume_while p).post = c.post ∧
    (∀ ch ∈ c.rem.takeWhile p, p ch = true) ∧
    ((c.consume_while p).rem = [] ∨
      ∃ ch rest2, (c.consume_while p).rem = ch :: rest2 ∧ p ch = false) := by
  have h := whileGo_eq p c.rem c rfl
  rw [Cursor.consume_while, h]
  refine ⟨rfl, rfl, rfl, fun ch hch => List.mem_takeWhile_imp hch, ?_⟩
  rcases hd : c.rem.dropWhile p with _ | ⟨ch, r⟩
  · exact Or.inl rfl
  · refine Or.inr ⟨ch, r, rfl, ?_⟩
    have := List.head?_dropWhile_not p c.rem
    rw [hd] at this
    exact this

theorem untilGo_spec (p : Char → Bool) :
    ∀ (l : List Char) (c : Cursor), c.rem = l →
    (Cursor.untilGo p l c).post = c.post ∧
    ∃ t, (Cursor.untilGo p l c).pre = c.pre ++ t ∧
      c.rem = t ++ (Cursor.untilGo p l c).rem ∧
      ((t = [] ∧ c.rem = []) ∨
        ∃ t0 ch, t = t0 ++ [ch] ∧ (∀ x ∈ t0, p x = false) ∧
          (p ch = true ∨
            ((Cursor.untilGo p l c).rem = [] ∧ p ch = false))) := by
  intro l
  induction l with
  | nil =>
      intro c hc
      obtain ⟨pre, rem, post⟩ := c
      simp only [] at hc
      subst hc
      exact ⟨rfl, [], by simp [Cursor.untilGo], by simp [Cursor.untilGo],
        Or.inl ⟨rfl, rfl⟩⟩
  | cons ch rest ih =>
      intro c hc
      obtain ⟨pre, rem, post⟩ := c
      simp only [] at hc
      subst hc
      rw [Cursor.untilGo]
      have hcons : (Cursor.mk pre (ch :: rest) post).consume
          = (some ch, ⟨pre ++ [ch], rest, post⟩) := rfl
      rw [hcons]
      by_cases hp : p ch
      · rw [if_pos hp]
        exact ⟨rfl, [ch], rfl, rfl,
          Or.inr ⟨[], ch, rfl, by simp, Or.inl hp⟩⟩
      · rw [if_neg hp]
        have hpf : p ch = false := by revert hp; cases p ch <;> simp
        obtain ⟨hpost, t', hpre', hrem', hdisj'⟩ :=
          ih ⟨pre ++ [ch], rest, post⟩ rfl
        refine ⟨hpost, ch :: t', ?_, ?_, ?_⟩
        · rw [hpre']; simp
        · simp only [] at hrem' ⊢
          rw [List.cons_append, ← hrem']
        · rcases hdisj' with ⟨ht', hrest⟩ | ⟨t0, ch', heq, hfail, hlast⟩
          · subst ht'
            simp only [] at hrest
            subst hrest
            simp only [] at hrem'
            refine Or.inr ⟨[], ch, rfl, by simp, Or.inr ⟨?_, hpf⟩⟩
            exact (by simpa using hrem'.symm)
          · refine Or.inr ⟨ch :: t0, ch', by rw [heq]; rfl, ?_, hlast⟩
            intro x hx
            rcases List.mem_cons.mp hx with rfl | hx2
            · exact hpf
            · exact hfail x hx2

/-- C7: `consume_until(P)` consumes characters through and including the
first one (in original order) satisfying `P`, leaving everything after
it; if no character satisfies `P` the whole remainder is consumed. -/
theorem consume_until_inclusive (c : Cursor) (p : Char → Bool) :
    (c.consume_until p).post = c.post ∧
    ∃ t, (c.consume_until p).pre = c.pre ++ t ∧
      c.rem = t ++ (c.consume_until p).rem ∧
      ((t = [] ∧ c.rem = []) ∨
        ∃ t0 ch, t = t0 ++ [ch] ∧ (∀ x ∈ t0, p x = false) ∧
          (p ch = true ∨
            ((c.consume_until p).rem = [] ∧ p ch = false))) :=
  untilGo_spec p c.rem c rfl

/-- What C8 asserts of one `focus_*` call: the pair `fres` returned by
the focus operation (sub-cursor, advanced original) matches the run
`cres` of the corresponding consume operation — the original cursor is
advanced to exactly `cres`, and the sub-cursor's full remaining view
(`as_str`) is exactly the substring that run consumed. -/
def FocusMatches (c : Cursor) (fres : Cursor × Cursor) (cres : Cursor) :
    Prop :=
  fres.2 = cres ∧ cres.pre = c.pre ++ fres.1.as_str ∧
  c.rem = fres.1.as_str ++ cres.rem ∧ cres.post = c.post

theorem focusMatches_of_advances {c : Cursor} {f : Cursor → Cursor}
    (h : Advances c (f c)) : FocusMatches c (c.focus_with f) (f c) := by
  obtain ⟨h2, t, hpre, hrem, hsub⟩ := focus_with_spec h
  refine ⟨h2, ?_, ?_, h.1⟩
  · rw [hsub]; exact hpre
  · rw [hsub]; exact hrem

/-- C8: for every `focus_*` operation, the returned sub-cursor's full
remaining content is exactly the substring the corresponding `consume_*`
operation consumes, and the original cursor is advanced past exactly
that substring. -/
theorem focus_returns_consumed_substring :
    (∀ (c : Cursor) (f : Cursor → Cursor), Advances c (f c) →
      FocusMatches c (c.focus_with f) (f c)) ∧
    (∀ c : Cursor, FocusMatches c c.focus_char (c.consume).2) ∧
    (∀ c : Cursor, FocusMatches c c.focus_line c.consume_line) ∧
    (∀ (c : Cursor) (p : Char → Bool),
      FocusMatches c (c.focus_while p) (c.consume_while p)) ∧
    (∀ (c : Cursor) (p : Char → Bool),
      FocusMatches c (c.focus_until p) (c.consume_until p)) ∧
    (∀ (c : Cursor) (p : List Char → Bool),
      FocusMatches c (c.focus_lines_while p) (c.consume_lines_while p)) ∧
    (∀ (c : Cursor) (p : List Char → Bool),
      FocusMatches c (c.focus_lines_until p) (c.consume_lines_until p)) :=
  ⟨fun c f h => focusMatches_of_advances h,
    fun c => focusMatches_of_advances (@Advances.consume c),
    fun c => focusMatches_of_advances (Advances.consume_line c),
    fun c p => focusMatches_of_advances (Advances.consume_while c p),
    fun c p => focusMatches_of_advances (Advances.consume_until c p),
    fun c p => focusMatches_of_advances (Advances.consume_lines_while c p),
    fun c p => focusMatches_of_advances (Advances.consume_lines_until c p)⟩

theorem focus_returns_consumed_substring_witness :
    Advances (Cursor.ofList ['x', 'y'])
      ((fun cur => cur.consume_while (fun ch => ch == 'x'))
        (Cursor.ofList ['x', 'y'])) ∧
    FocusMatches (Cursor.ofList ['x', 'y'])
      ((Cursor.ofList ['x', 'y']).focus_with
        (fun cur => cur.consume_while (fun ch => ch == 'x')))
      ((fun cur => cur.consume_while (fun ch => ch == 'x'))
        (Cursor.ofList ['x', 'y'])) :=
  ⟨⟨rfl, ['x'], by decide, by decide⟩,
    focus_returns_consumed_substring.1 (Cursor.ofList ['x', 'y'])
      (fun cur => cur.consume_while (fun ch => ch == 'x'))
      ⟨rfl, ['x'], by decide, by decide⟩⟩

theorem toDigit16_lt {c : Char} {d : Nat} (h : toDigit16 c = some d) :
    d < 16 := by
  unfold toDigit16 at h
  split at h
  · rename_i h1
    have hb : c.toNat ≤ ('9').toNat := h1.2
    simp only [Option.some.injEq] at h
    subst h
    rw [show ('9').toNat = 57 from by decide] at hb
    rw [show ('0').toNat = 48 from by decide]
    omega
  · split at h
    · rename_i h1
      have hb : c.toNat ≤ ('f').toNat := h1.2
      have ha : ('a').toNat ≤ c.toNat := h1.1
      simp only [Option.some.injEq] at h
      subst h
      rw [show ('f').toNat = 102 from by decide] at hb
      rw [show ('a').toNat = 97 from by decide] at ha ⊢
      omega
    · split at h
      · rename_i h1
        have hb : c.toNat ≤ ('F').toNat := h1.2
        have ha : ('A').toNat ≤ c.toNat := h1.1
        simp only [Option.some.injEq] at h
        subst h
        rw [show ('F').toNat = 70 from by decide] at hb
        rw [show ('A').toNat = 65 from by decide] at ha ⊢
        omega
      · exact absurd h (by simp)

/-- The closing-brace conversion, written as the case split of the
specification: out-of-range values, surrogates, and valid scalars. -/
theorem uniRes_eq (v : Nat) :
    uniRes v =
      if v > 0x10FFFF then .error .OutOfRangeUnicodeEscape
      else if 0xD800 ≤ v ∧ v ≤ 0xDFFF then
        .error .LoneSurrogateUnicodeEscape
      else .ok (Char.ofNat v) := by
  unfold uniRes charFromU32
  by_cases h1 : v < 0xD800 ∨ (0xDFFF < v ∧ v < 0x110000)
  · rw [if_pos h1]
    show Except.ok (Char.ofNat v) = _
    rw [if_neg (by omega : ¬ v > 0x10FFFF),
      if_neg (by omega : ¬ (0xD800 ≤ v ∧ v ≤ 0xDFFF))]
  · rw [if_neg h1]
    show (if v > 0x10FFFF then
        (Except.error EscapeError.OutOfRangeUnicodeEscape : EscResult)
      else Except.error EscapeError.LoneSurrogateUnicodeEscape) = _
    by_cases h2 : v > 0x10FFFF
    · rw [if_pos h2, if_pos h2]
    · rw [if_neg h2, if_neg h2,
        if_pos (by omega : 0xD800 ≤ v ∧ v ≤ 0xDFFF)]

theorem uniLoopF_spec :
    ∀ (rest t : List Char) (c : Cursor) (fuel n v : Nat),
    c.rem = rest ++ '\x7d' :: t →
    c.rem.length ≤ fuel →
    (∀ ch ∈ rest, (toDigit16 ch).isSome ∨ ch = '_') →
    v < 16 ^ n →
    (uniLoopF fuel c n v).1 =
      (if n + (rest.filterMap toDigit16).length > 6 then
        .error .OverlongUnicodeEscape
      else uniRes (List.foldl (fun a d => a * 16 + d) v
        (rest.filterMap toDigit16))) := by
  intro rest
  induction rest with
  | nil =>
      intro t c fuel n v hrem hfuel hall hv
      obtain ⟨pre, rem, post⟩ := c
      simp only [] at hrem
      subst hrem
      rcases fuel with _ | m
      · simp at hfuel
      rw [uniLoopF]
      have hcons : (Cursor.mk pre ([] ++ '\x7d' :: t) post).consume
          = (some '\x7d', ⟨pre ++ ['\x7d'], t, post⟩) := rfl
      rw [hcons]
      show (if ('\x7d' : Char) = '_' then
          uniLoopF m ⟨pre ++ ['\x7d'], t, post⟩ n v
        else if ('\x7d' : Char) = '\x7d' then
          if n > 6 then (Except.error EscapeError.OverlongUnicodeEscape,
            (⟨pre ++ ['\x7d'], t, post⟩ : Cursor))
          else (uniRes v, ⟨pre ++ ['\x7d'], t, post⟩)
        else
          match toDigit16 '\x7d' with
          | none => (Except.error EscapeError.InvalidCharInUnicodeEscape,
              (⟨pre ++ ['\x7d'], t, post⟩ : Cursor))
          | some digit =>
            if n + 1 > 6 then uniLoopF m ⟨pre ++ ['\x7d'], t, post⟩ (n + 1) v
            else uniLoopF m ⟨pre ++ ['\x7d'], t, post⟩ (n + 1)
              ((v * 16 + digit) % 4294967296)).1 = _
      rw [if_neg (by decide : ¬ ('\x7d' : Char) = '_'),
        if_pos (rfl : ('\x7d' : Char) = '\x7d')]
      simp only [List.filterMap_nil, List.length_nil, List.foldl_nil,
        Nat.add_zero]
      by_cases hn : n > 6
      · rw [if_pos hn, if_pos hn]
      · rw [if_neg hn, if_neg hn]
  | cons ch rest' ih =>
      intro t c fuel n v hrem hfuel hall hv
      obtain ⟨pre, rem, post⟩ := c
      simp only [] at hrem
      subst hrem
      rcases fuel with _ | m
      · simp at hfuel
      rw [uniLoopF]
      have hcons : (Cursor.mk pre ((ch :: rest') ++ '\x7d' :: t) post).consume
          = (some ch, ⟨pre ++ [ch], rest' ++ '\x7d' :: t, post⟩) := rfl
      rw [hcons]
      show (if ch = '_' then
          uniLoopF m ⟨pre ++ [ch], rest' ++ '\x7d' :: t, post⟩ n v
        else if ch = '\x7d' then
          if n > 6 then (Except.error EscapeError.OverlongUnicodeEscape,
            (⟨pre ++ [ch], rest' ++ '\x7d' :: t, post⟩ : Cursor))
          else (uniRes v, ⟨pre ++ [ch], rest' ++ '\x7d' :: t, post⟩)
        else
          match toDigit16 ch with
          | none => (Except.error EscapeError.InvalidCharInUnicodeEscape,
              (⟨pre ++ [ch], rest' ++ '\x7d' :: t, post⟩ : Cursor))
          | some digit =>
            if n + 1 > 6 then
              uniLoopF m ⟨pre ++ [ch], rest' ++ '\x7d' :: t, post⟩ (n + 1) v
            else uniLoopF m ⟨pre ++ [ch], rest' ++ '\x7d' :: t, post⟩ (n + 1)
              ((v * 16 + digit) % 4294967296)).1 = _
      have hall' : ∀ x ∈ rest', (toDigit16 x).isSome ∨ x = '_' :=
        fun x hx => hall x (List.mem_cons_of_mem _ hx)
      have hfuel' :
          (Cursor.mk (pre ++ [ch]) (rest' ++ '\x7d' :: t) post).rem.length
            ≤ m := by
        simp only [List.length_append, List.length_cons] at hfuel ⊢
        omega
      rcases hall ch (List.mem_cons_self _ _) with hd | hu
      · obtain ⟨d, hd⟩ := Option.isSome_iff_exists.mp hd
        have hne1 : ¬ ch = '_' := by
          intro he
          rw [he] at hd
          rw [show toDigit16 '_' = none from by decide] at hd
          exact Option.noConfusion hd
        have hne2 : ¬ ch = '\x7d' := by
          intro he
          rw [he] at hd
          rw [show toDigit16 '\x7d' = none from by decide] at hd
          exact Option.noConfusion hd
        rw [if_neg hne1, if_neg hne2, hd]
        show (if n + 1 > 6 then
            uniLoopF m ⟨pre ++ [ch], rest' ++ '\x7d' :: t, post⟩ (n + 1) v
          else uniLoopF m ⟨pre ++ [ch], rest' ++ '\x7d' :: t, post⟩ (n + 1)
            ((v * 16 + d) % 4294967296)).1 = _
        have hfm : (ch :: rest').filterMap toDigit16
            = d :: rest'.filterMap toDigit16 := by
          simp [List.filterMap_cons, hd]
        rw [hfm]
        have hd16 : d < 16 := toDigit16_lt hd
        by_cases h6 : n + 1 > 6
        · rw [if_pos h6]
          have hv' : v < 16 ^ (n + 1) :=
            lt_of_lt_of_le hv (Nat.pow_le_pow_right (by norm_num) (by omega))
          rw [ih t _ m (n + 1) v rfl hfuel' hall' hv']
          rw [if_pos (by omega :
            n + 1 + (rest'.filterMap toDigit16).length > 6)]
          rw [if_pos (by simp only [List.length_cons]; omega :
            n + (d :: rest'.filterMap toDigit16).length > 6)]
        · rw [if_neg h6]
          have hv16 : v * 16 + d < 16 ^ (n + 1) := by
            have h1 : v + 1 ≤ 16 ^ n := hv
            have h2 : (v + 1) * 16 ≤ 16 ^ n * 16 :=
              Nat.mul_le_mul_right 16 h1
            rw [Nat.pow_succ]
            omega
          have hmod : (v * 16 + d) % 4294967296 = v * 16 + d := by
            apply Nat.mod_eq_of_lt
            have h3 : 16 ^ (n + 1) ≤ 16 ^ 6 :=
              Nat.pow_le_pow_right (by norm_num) (by omega)
            have h4 : (16 : Nat) ^ 6 = 16777216 := by norm_num
            omega
          rw [hmod]
          rw [ih t _ m (n + 1) (v * 16 + d) rfl hfuel' hall' hv16]
          simp only [List.length_cons, List.foldl_cons]
          rw [show n + 1 + (rest'.filterMap toDigit16).length
              = n + ((rest'.filterMap toDigit16).length + 1) from by omega]
      · subst hu
        rw [if_pos rfl]
        rw [ih t _ m n v rfl hfuel' hall' hv]
        have hfm : ('_' :: rest').filterMap toDigit16
            = rest'.filterMap toDigit16 := by
          simp [List.filterMap_cons, show toDigit16 '_' = none from by decide]
        rw [hfm]

/-- C3: for a Unicode escape whose brace-delimited body is a hex digit
followed by hex digits and underscores up to the closing brace, the
result is `OverlongUnicodeEscape` when more than 6 hex digits (not
counting underscores) appear; otherwise, with `v` the base-16 value of
the digits, `OutOfRangeUnicodeEscape` when `v > 0x10FFFF`,
`LoneSurrogateUnicodeEscape` when `0xD800 ≤ v ≤ 0xDFFF`, and the
character with code `v` otherwise. -/
theorem unicode_escape_value (pre post t rest : List Char) (d0 : Char)
    (v0 : Nat) (h0 : toDigit16 d0 = some v0)
    (hall : ∀ ch ∈ rest, (toDigit16 ch).isSome ∨ ch = '_') :
    (scanUnicode ⟨pre, '\x7b' :: d0 :: (rest ++ '\x7d' :: t), post⟩).1 =
      (if ((d0 :: rest).filterMap toDigit16).length > 6 then
        .error .OverlongUnicodeEscape
      else if List.foldl (fun a d => a * 16 + d) 0
          ((d0 :: rest).filterMap toDigit16) > 0x10FFFF then
        .error .OutOfRangeUnicodeEscape
      else if 0xD800 ≤ List.foldl (fun a d => a * 16 + d) 0
            ((d0 :: rest).filterMap toDigit16)
          ∧ List.foldl (fun a d => a * 16 + d) 0
            ((d0 :: rest).filterMap toDigit16) ≤ 0xDFFF then
        .error .LoneSurrogateUnicodeEscape
      else .ok (Char.ofNat (List.foldl (fun a d => a * 16 + d) 0
        ((d0 :: rest).filterMap toDigit16)))) := by
  have hne1 : ¬ d0 = '_' := by
    intro he
    rw [he] at h0
    rw [show toDigit16 '_' = none from by decide] at h0
    exact Option.noConfusion h0
  have hne2 : ¬ d0 = '\x7d' := by
    intro he
    rw [he] at h0
    rw [show toDigit16 '\x7d' = none from by decide] at h0
    exact Option.noConfusion h0
  have hstep :
      (scanUnicode ⟨pre, '\x7b' :: d0 :: (rest ++ '\x7d' :: t), post⟩)
        = uniLoop ⟨(pre ++ ['\x7b']) ++ [d0], rest ++ '\x7d' :: t, post⟩
            1 v0 := by
    rw [scanUnicode]
    show (if d0 = '_' then
        (Except.error EscapeError.LeadingUnderscoreUnicodeEscape,
          (⟨(pre ++ ['\x7b']) ++ [d0], rest ++ '\x7d' :: t, post⟩ : Cursor))
      else if d0 = '\x7d' then
        (Except.error EscapeError.EmptyUnicodeEscape,
          (⟨(pre ++ ['\x7b']) ++ [d0], rest ++ '\x7d' :: t, post⟩ : Cursor))
      else
        match toDigit16 d0 with
        | none => (Except.error EscapeError.InvalidCharInUnicodeEscape,
            (⟨(pre ++ ['\x7b']) ++ [d0], rest ++ '\x7d' :: t, post⟩ : Cursor))
        | some v1 =>
            uniLoop ⟨(pre ++ ['\x7b']) ++ [d0], rest ++ '\x7d' :: t, post⟩
              1 v1) = _
    rw [if_neg hne1, if_neg hne2, h0]
  rw [hstep, uniLoop]
  have hv0 : v0 < 16 ^ 1 := by
    rw [pow_one]
    exact toDigit16_lt h0
  rw [uniLoopF_spec rest t _ _ 1 v0 rfl (le_refl _) hall hv0]
  have hfm : (d0 :: rest).filterMap toDigit16
      = v0 :: rest.filterMap toDigit16 := by
    simp [List.filterMap_cons, h0]
  rw [hfm]
  simp only [List.length_cons, List.foldl_cons, Nat.zero_mul, Nat.zero_add]
  rw [show 1 + (rest.filterMap toDigit16).length
      = (rest.filterMap toDigit16).length + 1 from by omega]
  rw [uniRes_eq]

theorem unicode_escape_value_witness :
    toDigit16 '1' = some 1 ∧
    (∀ ch ∈ ['F', '6', '3', 'b'], (toDigit16 ch).isSome ∨ ch = '_') ∧
    (scanUnicode ⟨[], '\x7b' :: '1' :: (['F', '6', '3', 'b']
        ++ '\x7d' :: []), []⟩).1 = .ok (Char.ofNat 0x1F63B) :=
  ⟨by decide, by decide,
    (unicode_escape_value [] [] [] ['F', '6', '3', 'b'] '1' 1
      (by decide) (by decide)).trans (by rfl)⟩

/-- C4, counterexample: after `\x`, a single following character that is
not a hex digit yields `InvalidCharInHexEscape`, not the
`TooShortHexEscape` the claim's first case predicts for "fewer than two
characters follow the x" (the source's own test expects this for
`\xx`). -/
theorem hex_escape_order_counterexample :
    (scan_escape ⟨['\\'], ['x', 'x'], []⟩).1
        = .error .InvalidCharInHexEscape ∧
    (scan_escape ⟨['\\'], ['x', 'x'], []⟩).1
        ≠ .error .TooShortHexEscape := by
  refine ⟨rfl, ?_⟩
  intro h
  rw [show (scan_escape ⟨['\\'], ['x', 'x'], []⟩).1
      = .error .InvalidCharInHexEscape from rfl] at h
  simp at h

/-- C4, amended: the two characters after `\x` are checked one at a
time, presence before hex-validity — a missing character yields
`TooShortHexEscape` and a present non-hex character yields
`InvalidCharInHexEscape` (so one non-hex character gives
`InvalidCharInHexEscape`, not `TooShortHexEscape`); two hex digits
succeed with character code `hi*16 + lo` for every byte value 0–255
with no ASCII-range restriction — in particular `\x7f` decodes, as one
unit with range `0..4`, to character code 127. -/
theorem hex_escape_checks :
    (∀ (pre post : List Char),
      (scanHex ⟨pre, [], post⟩).1 = .error .TooShortHexEscape) ∧
    (∀ (pre post t : List Char) (hc : Char), toDigit16 hc = none →
      (scanHex ⟨pre, hc :: t, post⟩).1 = .error .InvalidCharInHexEscape) ∧
    (∀ (pre post : List Char) (hc : Char) (dh : Nat),
      toDigit16 hc = some dh →
      (scanHex ⟨pre, [hc], post⟩).1 = .error .TooShortHexEscape) ∧
    (∀ (pre post t : List Char) (hc lc : Char) (dh : Nat),
      toDigit16 hc = some dh → toDigit16 lc = none →
      (scanHex ⟨pre, hc :: lc :: t, post⟩).1
        = .error .InvalidCharInHexEscape) ∧
    (∀ (pre post t : List Char) (hc lc : Char) (dh dl : Nat),
      toDigit16 hc = some dh → toDigit16 lc = some dl →
      (scanHex ⟨pre, hc :: lc :: t, post⟩).1
        = .ok (Char.ofNat (dh * 16 + dl))) ∧
    unescape_str (Cursor.ofList ['\\', 'x', '7', 'f']) Mode.Double
      = [((0, 4), .ok (Char.ofNat 127))] := by
  refine ⟨fun pre post => rfl, ?_, ?_, ?_, ?_, by rfl⟩
  · intro pre post t hc hd
    simp only [scanHex, Cursor.consume, hd]
  · intro pre post hc dh hd
    simp only [scanHex, Cursor.consume, hd]
  · intro pre post t hc lc dh hd hl
    simp only [scanHex, Cursor.consume, hd, hl]
  · intro pre post t hc lc dh dl hd hl
    simp only [scanHex, Cursor.consume, hd, hl]
    have hdh : dh < 16 := toDigit16_lt hd
    have hdl : dl < 16 := toDigit16_lt hl
    rw [Nat.mod_eq_of_lt (by omega)]

theorem hex_escape_checks_witness :
    toDigit16 '7' = some 7 ∧ toDigit16 'f' = some 15 ∧
    (scanHex ⟨['\\', 'x'], ['7', 'f'], []⟩).1 = .ok (Char.ofNat 127) :=
  ⟨by decide, by decide,
    (hex_escape_checks.2.2.2.2.1 ['\\', 'x'] [] [] '7' 'f' 7 15
      (by decide) (by decide)).trans (by rfl)⟩
